import Mathlib

set_option maxRecDepth 2000000

/-!
Verification of the rendezvous-hashing core of the repository.

The Python source under scrutiny consists of `hash_function` (the SHA-256
digest of `key_id + node_id`, read as an unbounded integer),
`rendezvous_hashing` (a highest-wins scan over the node list, starting from
`highest_weight = -1` and `assigned_node = None`), and `run_statistics`
(a tally over sample keys using a `Counter` pre-seeded with the node ids).

The SHA-256 function is modelled bit-for-bit from FIPS 180-4, which is the
behaviour of `hashlib.sha256`; all arithmetic is on `Nat` with explicit
`% 2^32` where the algorithm works modulo 32 bits.
-/

/-! ### SHA-256, after FIPS 180-4 (the behaviour of hashlib.sha256) -/

/-- Right rotation of a 32-bit word represented as a `Nat`. -/
def rotr32 (n x : Nat) : Nat :=
  x / 2 ^ n + x % 2 ^ n * 2 ^ (32 - n)

/-- The Ch function of FIPS 180-4: `(x AND y) XOR ((NOT x) AND z)`. -/
def sha2Ch (x y z : Nat) : Nat :=
  (x &&& y) ^^^ ((x ^^^ 4294967295) &&& z)

/-- The Maj function of FIPS 180-4. -/
def sha2Maj (x y z : Nat) : Nat :=
  (x &&& y) ^^^ (x &&& z) ^^^ (y &&& z)

/-- The Sigma0 function of FIPS 180-4. -/
def bigSigma0 (x : Nat) : Nat :=
  rotr32 2 x ^^^ rotr32 13 x ^^^ rotr32 22 x

/-- The Sigma1 function of FIPS 180-4. -/
def bigSigma1 (x : Nat) : Nat :=
  rotr32 6 x ^^^ rotr32 11 x ^^^ rotr32 25 x

/-- The sigma0 function of FIPS 180-4 (the SHR 3 term is division by 8). -/
def smallSigma0 (x : Nat) : Nat :=
  rotr32 7 x ^^^ rotr32 18 x ^^^ x / 2 ^ 3

/-- The sigma1 function of FIPS 180-4. -/
def smallSigma1 (x : Nat) : Nat :=
  rotr32 17 x ^^^ rotr32 19 x ^^^ x / 2 ^ 10

/-- The 64 round constants K of SHA-256. -/
def K256 : List Nat :=
  [1116352408, 1899447441, 3049323471, 3921009573, 961987163,
   1508970993, 2453635748, 2870763221, 3624381080, 310598401,
   607225278, 1426881987, 1925078388, 2162078206, 2614888103,
   3248222580, 3835390401, 4022224774, 264347078, 604807628,
   770255983, 1249150122, 1555081692, 1996064986, 2554220882,
   2821834349, 2952996808, 3210313671, 3336571891, 3584528711,
   113926993, 338241895, 666307205, 773529912, 1294757372,
   1396182291, 1695183700, 1986661051, 2177026350, 2456956037,
   2730485921, 2820302411, 3259730800, 3345764771, 3516065817,
   3600352804, 4094571909, 275423344, 430227734, 506948616,
   659060556, 883997877, 958139571, 1322822218, 1537002063,
   1747873779, 1955562222, 2024104815, 2227730452, 2361852424,
   2428436474, 2756734187, 3204031479, 3329325298]

/-- The eight 32-bit working variables (also used for the hash state H). -/
structure Hash8 where
  h0 : Nat
  h1 : Nat
  h2 : Nat
  h3 : Nat
  h4 : Nat
  h5 : Nat
  h6 : Nat
  h7 : Nat

/-- The initial hash value H⁽⁰⁾ of SHA-256. -/
def sha256H0 : Hash8 :=
  ⟨1779033703, 3144134277, 1013904242, 2773480762,
   1359893119, 2600822924, 528734635, 1541459225⟩

/-- The eight big-endian bytes of the 64-bit message bit length. -/
def lenBytes (L : Nat) : List Nat :=
  let bl := 8 * L
  [bl / 2 ^ 56 % 256, bl / 2 ^ 48 % 256, bl / 2 ^ 40 % 256, bl / 2 ^ 32 % 256,
   bl / 2 ^ 24 % 256, bl / 2 ^ 16 % 256, bl / 2 ^ 8 % 256, bl % 256]

/-- SHA-256 padding: append `0x80`, zero bytes up to 56 mod 64, then the
bit length in 8 big-endian bytes. -/
def padMsg (msg : List Nat) : List Nat :=
  msg ++ [0x80] ++ List.replicate ((119 - msg.length % 64) % 64) 0 ++ lenBytes msg.length

/-- Split a byte list into `nblocks` chunks of 64 bytes. -/
def chunk64 (l : List Nat) : Nat → List (List Nat)
  | 0 => []
  | k + 1 => l.take 64 :: chunk64 (l.drop 64) k

/-- Read `n` big-endian 32-bit words off a byte list. -/
def bytesToWords (l : List Nat) : Nat → List Nat
  | 0 => []
  | k + 1 =>
    (l.getD 0 0 * 2 ^ 24 + l.getD 1 0 * 2 ^ 16 + l.getD 2 0 * 2 ^ 8 + l.getD 3 0)
      :: bytesToWords (l.drop 4) k

/-- Extend the 16 block words to the 64-entry message schedule W. -/
def msgSchedule (w16 : List Nat) : List Nat :=
  (List.range 48).foldl
    (fun w _ =>
      let n := w.length
      w ++ [(smallSigma1 (w.getD (n - 2) 0) + w.getD (n - 7) 0 +
             smallSigma0 (w.getD (n - 15) 0) + w.getD (n - 16) 0) % 2 ^ 32])
    w16

/-- One round of the SHA-256 compression loop; `h0`..`h7` play a..h. -/
def sha256Round (w k : Nat) (s : Hash8) : Hash8 :=
  let t1 := (s.h7 + bigSigma1 s.h4 + sha2Ch s.h4 s.h5 s.h6 + k + w) % 2 ^ 32
  let t2 := (bigSigma0 s.h0 + sha2Maj s.h0 s.h1 s.h2) % 2 ^ 32
  { h0 := (t1 + t2) % 2 ^ 32, h1 := s.h0, h2 := s.h1, h3 := s.h2,
    h4 := (s.h3 + t1) % 2 ^ 32, h5 := s.h4, h6 := s.h5, h7 := s.h6 }

/-- Compress one 64-byte block (given as its 16 words) into the hash state. -/
def sha256Compress (Hs : Hash8) (block16 : List Nat) : Hash8 :=
  let w := msgSchedule block16
  let r := (List.range 64).foldl
    (fun s t => sha256Round (w.getD t 0) (K256.getD t 0) s) Hs
  { h0 := (Hs.h0 + r.h0) % 2 ^ 32, h1 := (Hs.h1 + r.h1) % 2 ^ 32,
    h2 := (Hs.h2 + r.h2) % 2 ^ 32, h3 := (Hs.h3 + r.h3) % 2 ^ 32,
    h4 := (Hs.h4 + r.h4) % 2 ^ 32, h5 := (Hs.h5 + r.h5) % 2 ^ 32,
    h6 := (Hs.h6 + r.h6) % 2 ^ 32, h7 := (Hs.h7 + r.h7) % 2 ^ 32 }

/-- Run SHA-256 over a byte list, returning the final hash state. -/
def sha256Run (msg : List Nat) : Hash8 :=
  let padded := padMsg msg
  (chunk64 padded (padded.length / 64)).foldl
    (fun Hs b => sha256Compress Hs (bytesToWords b 16)) sha256H0

/-- The SHA-256 digest as one natural number: the big-endian concatenation
of the eight state words, exactly `int(hexdigest, 16)` in the source. -/
def sha256Nat (msg : List Nat) : Nat :=
  let s := sha256Run msg
  ((((((s.h0 * 2 ^ 32 + s.h1) * 2 ^ 32 + s.h2) * 2 ^ 32 + s.h3) * 2 ^ 32 + s.h4)
      * 2 ^ 32 + s.h5) * 2 ^ 32 + s.h6) * 2 ^ 32 + s.h7

/-- The UTF-8 encoding of one character (Python's `str.encode("utf-8")`,
per code point). -/
def utf8Bytes (c : Char) : List Nat :=
  let n := c.toNat
  if n < 0x80 then [n]
  else if n < 0x800 then [0xc0 + n / 2 ^ 6, 0x80 + n % 2 ^ 6]
  else if n < 0x10000 then
    [0xe0 + n / 2 ^ 12, 0x80 + n / 2 ^ 6 % 2 ^ 6, 0x80 + n % 2 ^ 6]
  else
    [0xf0 + n / 2 ^ 18, 0x80 + n / 2 ^ 12 % 2 ^ 6, 0x80 + n / 2 ^ 6 % 2 ^ 6,
     0x80 + n % 2 ^ 6]

/-- The UTF-8 byte sequence of a string. -/
def strBytes (s : String) : List Nat :=
  s.data.flatMap utf8Bytes

/-! ### The source functions -/

/-- The source function hash_function: SHA-256 of the concatenation
key_id + node_id encoded in UTF-8, read as an integer. -/
def hash_function (key_id node_id : String) : Nat :=
  sha256Nat (strBytes (key_id ++ node_id))

/-- One iteration of the source loop in rendezvous_hashing: the running
state is the pair (highest_weight, assigned_node), starting from
(-1, None); a node becomes the assignee exactly when its weight strictly
exceeds the running maximum. -/
def rvStep (score : String → String → Nat) (key : String)
    (st : Int × Option String) (node_id : String) : Int × Option String :=
  let weight : Int := score key node_id
  if weight > st.1 then (weight, some node_id) else st

/-- The source loop of rendezvous_hashing, generic in the score function
(the source instantiates it with hash_function). -/
def rendezvousWith (score : String → String → Nat) (key : String)
    (nodes : List String) : Option String :=
  (nodes.foldl (rvStep score key) (-1, none)).2

/-- The source function rendezvous_hashing: scan the node list, keep the
node of strictly highest hash_function weight, return the assigned node
(None when the list is empty). -/
def rendezvous_hashing (key_id : String) (node_ids : List String) : Option String :=
  rendezvousWith hash_function key_id node_ids

/-- The counter built by the source run_statistics: a Counter pre-seeded
with the node ids (each id contributing one occurrence per appearance in
the list), then one occurrence of the assigned node per sample key
str(0), ..., str(num_samples - 1). -/
def run_statistics_counter (node_ids : List String) (num_samples : Nat) :
    Multiset (Option String) :=
  (List.range num_samples).foldl
    (fun cnt i => rendezvous_hashing (toString i) node_ids ::ₘ cnt)
    ((node_ids.map some : List (Option String)) : Multiset (Option String))

/-- One Python division: ZeroDivisionError, modelled as failure, exactly
when the divisor is zero; otherwise the exact rational quotient. -/
def pyDiv (a b : Rat) : Option Rat :=
  if b = 0 then none else some (a / b)

/-- The counter values of Counter.items, one per distinct key. Repeated
values cannot change a maximum or minimum, so the value set suffices. -/
def counterValues (cnt : Multiset (Option String)) : Finset Nat :=
  cnt.toFinset.image (fun k => Multiset.count k cnt)

/-- Python max over the counter values; ValueError (failure) when empty. -/
def pyMaxVals (s : Finset Nat) : Option Nat :=
  if h : s.Nonempty then some (s.max' h) else none

/-- Python min over the counter values; ValueError (failure) when empty. -/
def pyMinVals (s : Finset Nat) : Option Nat :=
  if h : s.Nonempty then some (s.min' h) else none

/-- The function diff_percent of the source, with the final two-decimal
rounding omitted (rounding cannot fail): it fails exactly when expected is
zero, since Python float division by zero raises ZeroDivisionError. -/
def diff_percent (observer : Nat) (expected : Rat) : Option Rat :=
  if expected = 0 then none
  else some (100 * ((observer : Rat) - expected) / expected)

/-- The values assembled (and printed) by run_statistics. -/
structure RunStatsReport where
  total : Nat
  expected : Rat
  min_dist : Nat
  max_dist : Nat
  min_diff_percent : Rat
  max_diff_percent : Rat

/-- The source function run_statistics: the counter phase followed by the
report phase, with a Python exception modelled as None: ZeroDivisionError
from num_samples / len(node_ids) when the node list is empty and from
diff_percent when the expected count per node is zero; ValueError from
max or min of an empty counter (unreachable once the first division
succeeds). Arithmetic is exact rational in place of Python floats; every
division that can fail here fails on an exactly-zero divisor, which the
rationals represent exactly. -/
def run_statistics (node_ids : List String) (num_samples : Nat) :
    Option RunStatsReport :=
  let nodes_counts := run_statistics_counter node_ids num_samples
  let total := Multiset.card nodes_counts
  (pyDiv (num_samples : Rat) (node_ids.length : Rat)).bind fun expected =>
    (pyMaxVals (counterValues nodes_counts)).bind fun max_dist =>
      (pyMinVals (counterValues nodes_counts)).bind fun min_dist =>
        (diff_percent min_dist expected).bind fun mind =>
          (diff_percent max_dist expected).bind fun maxd =>
            some ⟨total, expected, min_dist, max_dist, mind, maxd⟩

/-! ### Properties of the selection loop -/

section RendezvousLemmas

variable (score : String → String → Nat) (key : String)

lemma foldl_fst_lt (B : Int) (l : List String) :
    ∀ st : Int × Option String, st.1 < B →
      (∀ x ∈ l, (score key x : Int) < B) →
      (l.foldl (rvStep score key) st).1 < B := by
  induction l with
  | nil => intro st h _; simpa using h
  | cons x rest ih =>
    intro st hst hl
    rw [List.foldl_cons]
    apply ih
    · by_cases hx : (score key x : Int) > st.1
      · simpa [rvStep, hx] using hl x (by simp)
      · simpa [rvStep, hx] using hst
    · intro y hy; exact hl y (List.mem_cons_of_mem _ hy)

lemma foldl_no_improve (l : List String) :
    ∀ st : Int × Option String, (∀ x ∈ l, (score key x : Int) ≤ st.1) →
      l.foldl (rvStep score key) st = st := by
  induction l with
  | nil => intro st _; rfl
  | cons x rest ih =>
    intro st h
    rw [List.foldl_cons]
    have hx : ¬ ((score key x : Int) > st.1) := not_lt.mpr (h x (by simp))
    have hstep : rvStep score key st x = st := by simp [rvStep, hx]
    rw [hstep]
    exact ih st (fun y hy => h y (List.mem_cons_of_mem _ hy))

lemma foldl_snd_isSome (l : List String) :
    ∀ st : Int × Option String, st.2.isSome = true →
      ((l.foldl (rvStep score key) st).2).isSome = true := by
  induction l with
  | nil => intro st h; exact h
  | cons x rest ih =>
    intro st h
    rw [List.foldl_cons]
    apply ih
    by_cases hx : (score key x : Int) > st.1
    · simp [rvStep, hx]
    · simpa [rvStep, hx] using h

/-- Where the loop's assignee can come from: either the starting state,
with no element of the list ever improving on the starting weight, or
the first element of the list attaining the maximum weight. -/
lemma foldl_snd_eq_some (l : List String) :
    ∀ (st : Int × Option String) (n : String),
      (l.foldl (rvStep score key) st).2 = some n →
      (st.2 = some n ∧ ∀ x ∈ l, (score key x : Int) ≤ st.1) ∨
      (∃ a b, l = a ++ n :: b ∧ st.1 < (score key n : Int) ∧
        (∀ x ∈ a, (score key x : Int) < (score key n : Int)) ∧
        (∀ x ∈ b, (score key x : Int) ≤ (score key n : Int))) := by
  induction l with
  | nil => intro st n h; left; exact ⟨h, by simp⟩
  | cons x rest ih =>
    intro st n h
    rw [List.foldl_cons] at h
    by_cases hx : (score key x : Int) > st.1
    · have hstep : rvStep score key st x = ((score key x : Int), some x) := by
        simp [rvStep, hx]
      rw [hstep] at h
      rcases ih _ n h with ⟨h1, h2⟩ | ⟨a, b, hab, hlt, ha, hb⟩
      · have hxn : x = n := by simpa using h1
        subst hxn
        right
        exact ⟨[], rest, by simp, hx, by simp, by simpa using h2⟩
      · right
        have hxlt : (score key x : Int) < (score key n : Int) := by simpa using hlt
        refine ⟨x :: a, b, by simp [hab], lt_trans hx hxlt, ?_, hb⟩
        intro y hy
        rcases List.mem_cons.mp hy with rfl | hy'
        · exact hxlt
        · exact ha y hy'
    · have hstep : rvStep score key st x = st := by simp [rvStep, hx]
      rw [hstep] at h
      rcases ih st n h with ⟨h1, h2⟩ | ⟨a, b, hab, hlt, ha, hb⟩
      · left
        refine ⟨h1, ?_⟩
        intro y hy
        rcases List.mem_cons.mp hy with rfl | hy'
        · exact not_lt.mp hx
        · exact h2 y hy'
      · right
        refine ⟨x :: a, b, by simp [hab], hlt, ?_, hb⟩
        intro y hy
        rcases List.mem_cons.mp hy with rfl | hy'
        · exact lt_of_le_of_lt (not_lt.mp hx) hlt
        · exact ha y hy'

/-- The first element attaining the maximal weight wins the scan. -/
lemma foldl_first_max (a b : List String) (n : String)
    (st : Int × Option String) (hst : st.1 < (score key n : Int))
    (ha : ∀ x ∈ a, (score key x : Int) < (score key n : Int))
    (hb : ∀ x ∈ b, (score key x : Int) ≤ (score key n : Int)) :
    ((a ++ n :: b).foldl (rvStep score key) st).2 = some n := by
  rw [List.foldl_append, List.foldl_cons]
  have h1 : (a.foldl (rvStep score key) st).1 < (score key n : Int) :=
    foldl_fst_lt score key _ a st hst ha
  have hstep : rvStep score key (a.foldl (rvStep score key) st) n
      = ((score key n : Int), some n) := by
    simp [rvStep, h1]
  rw [hstep]
  rw [foldl_no_improve score key b _ (by simpa using hb)]

/-- Winning node of a list decomposed around the first maximal node. -/
theorem rendezvousWith_first_max (a b : List String) (n : String)
    (ha : ∀ x ∈ a, score key x < score key n)
    (hb : ∀ x ∈ b, score key x ≤ score key n) :
    rendezvousWith score key (a ++ n :: b) = some n := by
  unfold rendezvousWith
  apply foldl_first_max
  · have : (0 : Int) ≤ (score key n : Int) := Int.natCast_nonneg _
    omega
  · intro x hx; exact_mod_cast ha x hx
  · intro x hx; exact_mod_cast hb x hx

/-- A one-node list always assigns to that node. -/
theorem rendezvousWith_singleton (n : String) :
    rendezvousWith score key [n] = some n := by
  have := rendezvousWith_first_max score key [] [] n (by simp) (by simp)
  simpa using this

/-- On a two-node list with equal scores the first node wins. -/
theorem rendezvousWith_pair_eq (x y : String) (h : score key x = score key y) :
    rendezvousWith score key [x, y] = some x := by
  have := rendezvousWith_first_max score key [] [y] x (by simp)
    (by intro z hz; simp at hz; subst hz; omega)
  simpa using this

/-- An assigned node splits the list into nodes scoring strictly below it
(before) and at most it (after). -/
theorem rendezvousWith_decomp (l : List String) (n : String)
    (h : rendezvousWith score key l = some n) :
    ∃ a b, l = a ++ n :: b ∧ (∀ x ∈ a, score key x < score key n) ∧
      (∀ x ∈ b, score key x ≤ score key n) := by
  unfold rendezvousWith at h
  rcases foldl_snd_eq_some score key l (-1, none) n h with ⟨h1, _⟩ | ⟨a, b, hab, _, ha, hb⟩
  · simp at h1
  · exact ⟨a, b, hab, fun x hx => by exact_mod_cast ha x hx,
      fun x hx => by exact_mod_cast hb x hx⟩

/-- The assigned node is a member of the node list. -/
theorem rendezvousWith_mem (l : List String) (n : String)
    (h : rendezvousWith score key l = some n) : n ∈ l := by
  obtain ⟨a, b, rfl, -, -⟩ := rendezvousWith_decomp score key l n h
  simp

/-- The assigned node has maximal score over the node list. -/
theorem rendezvousWith_le (l : List String) (n : String)
    (h : rendezvousWith score key l = some n) :
    ∀ x ∈ l, score key x ≤ score key n := by
  obtain ⟨a, b, rfl, ha, hb⟩ := rendezvousWith_decomp score key l n h
  intro x hx
  rcases List.mem_append.mp hx with hx | hx
  · exact le_of_lt (ha x hx)
  · rcases List.mem_cons.mp hx with rfl | hx
    · exact le_refl _
    · exact hb x hx

/-- A non-empty node list always yields an assigned node, a member. -/
theorem rendezvousWith_exists (l : List String) (hne : l ≠ []) :
    ∃ n, rendezvousWith score key l = some n ∧ n ∈ l := by
  obtain ⟨x, rest, rfl⟩ := List.exists_cons_of_ne_nil hne
  have hgt : ((-1, none) : Int × Option String).1 < (score key x : Int) := by
    have : (0 : Int) ≤ (score key x : Int) := Int.natCast_nonneg _
    simp; omega
  have h1 : rvStep score key (-1, none) x = ((score key x : Int), some x) := by
    simp [rvStep, hgt]
  have h2 : ((List.foldl (rvStep score key) (-1, none) (x :: rest)).2).isSome = true := by
    rw [List.foldl_cons, h1]
    exact foldl_snd_isSome score key rest _ rfl
  obtain ⟨n, hn⟩ := Option.isSome_iff_exists.mp h2
  have hn' : rendezvousWith score key (x :: rest) = some n := hn
  exact ⟨n, hn', rendezvousWith_mem score key _ n hn'⟩

/-- Removing a node other than the assignee does not change the assignee. -/
theorem rendezvousWith_removal (l₁ l₂ : List String) (m n : String)
    (h : rendezvousWith score key (l₁ ++ m :: l₂) = some n) (hmn : m ≠ n) :
    rendezvousWith score key (l₁ ++ l₂) = some n := by
  unfold rendezvousWith at h ⊢
  rw [List.foldl_append] at h ⊢
  rw [List.foldl_cons] at h
  by_cases hm : (score key m : Int) > (List.foldl (rvStep score key) (-1, none) l₁).1
  · have hstep : rvStep score key (List.foldl (rvStep score key) (-1, none) l₁) m
        = ((score key m : Int), some m) := by
      simp [rvStep, hm]
    rw [hstep] at h
    rcases foldl_snd_eq_some score key l₂ _ n h with ⟨h1, _⟩ | ⟨a, b, hab, hlt, ha, hb⟩
    · exact absurd (by simpa using h1) hmn
    · have hmn' : (score key m : Int) < (score key n : Int) := by simpa using hlt
      rw [hab]
      exact foldl_first_max score key a b n _ (lt_trans hm hmn') ha hb
  · have hstep : rvStep score key (List.foldl (rvStep score key) (-1, none) l₁) m
        = List.foldl (rvStep score key) (-1, none) l₁ := by
      simp [rvStep, hm]
    rw [hstep] at h
    exact h

/-- Adding a node moves the assignment, if at all, only to the new node. -/
theorem rendezvousWith_addition (l₁ l₂ : List String) (m n : String)
    (h : rendezvousWith score key (l₁ ++ l₂) = some n) :
    rendezvousWith score key (l₁ ++ m :: l₂) = some n ∨
    rendezvousWith score key (l₁ ++ m :: l₂) = some m := by
  unfold rendezvousWith at h ⊢
  rw [List.foldl_append] at h ⊢
  rw [List.foldl_cons]
  by_cases hm : (score key m : Int) > (List.foldl (rvStep score key) (-1, none) l₁).1
  · have hstep : rvStep score key (List.foldl (rvStep score key) (-1, none) l₁) m
        = ((score key m : Int), some m) := by
      simp [rvStep, hm]
    rw [hstep]
    rcases foldl_snd_eq_some score key l₂ _ n h with ⟨h1, h2⟩ | ⟨a, b, hab, hlt, ha, hb⟩
    · right
      have hni : List.foldl (rvStep score key) ((score key m : Int), some m) l₂
          = ((score key m : Int), some m) := by
        apply foldl_no_improve
        intro x hx
        have hxle := h2 x hx
        show (score key x : Int) ≤ (score key m : Int)
        omega
      rw [hni]
    · by_cases hcase : (score key m : Int) < (score key n : Int)
      · left
        rw [hab]
        exact foldl_first_max score key a b n _ (by simpa using hcase) ha hb
      · right
        have hni : List.foldl (rvStep score key) ((score key m : Int), some m) l₂
            = ((score key m : Int), some m) := by
          apply foldl_no_improve
          intro x hx
          rw [hab] at hx
          show (score key x : Int) ≤ (score key m : Int)
          rcases List.mem_append.mp hx with hx | hx
          · have := ha x hx; omega
          · rcases List.mem_cons.mp hx with rfl | hx
            · omega
            · have := hb x hx; omega
        rw [hni]
  · have hstep : rvStep score key (List.foldl (rvStep score key) (-1, none) l₁) m
        = List.foldl (rvStep score key) (-1, none) l₁ := by
      simp [rvStep, hm]
    rw [hstep]
    left
    exact h

/-- When no two nodes of the list tie in score, the assignment does not
depend on the order of the node list. -/
theorem rendezvousWith_perm (l l' : List String) (hperm : l.Perm l')
    (hinj : ∀ x ∈ l, ∀ y ∈ l, score key x = score key y → x = y) :
    rendezvousWith score key l = rendezvousWith score key l' := by
  rcases eq_or_ne l [] with rfl | hne
  · have hnil : l' = [] := hperm.symm.eq_nil
    subst hnil
    rfl
  · have hne' : l' ≠ [] := by
      intro hnil
      subst hnil
      exact hne hperm.eq_nil
    obtain ⟨n, hn, hmem⟩ := rendezvousWith_exists score key l hne
    obtain ⟨n', hn', hmem'⟩ := rendezvousWith_exists score key l' hne'
    have hmem'' : n' ∈ l := hperm.mem_iff.mpr hmem'
    have h1 : score key n' ≤ score key n := rendezvousWith_le score key l n hn n' hmem''
    have h2 : score key n ≤ score key n' :=
      rendezvousWith_le score key l' n' hn' n (hperm.mem_iff.mp hmem)
    have heq : n = n' := hinj n hmem n' hmem'' (le_antisymm h2 h1)
    rw [hn, hn', heq]

end RendezvousLemmas

/-! ### Range of the digest -/

/-- All eight words of a hash state fit in 32 bits. -/
def hash8Bounded (s : Hash8) : Prop :=
  s.h0 < 2 ^ 32 ∧ s.h1 < 2 ^ 32 ∧ s.h2 < 2 ^ 32 ∧ s.h3 < 2 ^ 32 ∧
  s.h4 < 2 ^ 32 ∧ s.h5 < 2 ^ 32 ∧ s.h6 < 2 ^ 32 ∧ s.h7 < 2 ^ 32

lemma sha256Compress_bounded (Hs : Hash8) (b : List Nat) :
    hash8Bounded (sha256Compress Hs b) := by
  have h32 : 0 < 2 ^ 32 := by norm_num
  unfold hash8Bounded sha256Compress
  exact ⟨Nat.mod_lt _ h32, Nat.mod_lt _ h32, Nat.mod_lt _ h32, Nat.mod_lt _ h32,
         Nat.mod_lt _ h32, Nat.mod_lt _ h32, Nat.mod_lt _ h32, Nat.mod_lt _ h32⟩

lemma foldl_compress_bounded (L : List (List Nat)) :
    ∀ s : Hash8, hash8Bounded s →
      hash8Bounded (L.foldl (fun Hs b => sha256Compress Hs (bytesToWords b 16)) s) := by
  induction L with
  | nil => intro s hs; exact hs
  | cons b L ih =>
    intro s hs
    rw [List.foldl_cons]
    exact ih _ (sha256Compress_bounded _ _)

lemma sha256Run_bounded (msg : List Nat) : hash8Bounded (sha256Run msg) := by
  unfold sha256Run
  exact foldl_compress_bounded _ sha256H0
    (by unfold hash8Bounded sha256H0; norm_num)

lemma mul_add_lt {a b A : Nat} (ha : a < A) (hb : b < 2 ^ 32) :
    a * 2 ^ 32 + b < A * 2 ^ 32 := by
  calc a * 2 ^ 32 + b < a * 2 ^ 32 + 2 ^ 32 := by omega
  _ = (a + 1) * 2 ^ 32 := by ring
  _ ≤ A * 2 ^ 32 := Nat.mul_le_mul_right _ ha

/-- The digest is a 256-bit number. -/
lemma sha256Nat_lt (msg : List Nat) : sha256Nat msg < 2 ^ 256 := by
  obtain ⟨b0, b1, b2, b3, b4, b5, b6, b7⟩ := sha256Run_bounded msg
  unfold sha256Nat
  have e1 := mul_add_lt b0 b1
  rw [show (2 : Nat) ^ 32 * 2 ^ 32 = 2 ^ 64 by norm_num] at e1
  have e2 := mul_add_lt e1 b2
  rw [show (2 : Nat) ^ 64 * 2 ^ 32 = 2 ^ 96 by norm_num] at e2
  have e3 := mul_add_lt e2 b3
  rw [show (2 : Nat) ^ 96 * 2 ^ 32 = 2 ^ 128 by norm_num] at e3
  have e4 := mul_add_lt e3 b4
  rw [show (2 : Nat) ^ 128 * 2 ^ 32 = 2 ^ 160 by norm_num] at e4
  have e5 := mul_add_lt e4 b5
  rw [show (2 : Nat) ^ 160 * 2 ^ 32 = 2 ^ 192 by norm_num] at e5
  have e6 := mul_add_lt e5 b6
  rw [show (2 : Nat) ^ 192 * 2 ^ 32 = 2 ^ 224 by norm_num] at e6
  have e7 := mul_add_lt e6 b7
  rw [show (2 : Nat) ^ 224 * 2 ^ 32 = 2 ^ 256 by norm_num] at e7
  exact e7

/-- The hash of any key and node id is a 256-bit number. -/
lemma hash_function_lt (key_id node_id : String) :
    hash_function key_id node_id < 2 ^ 256 :=
  sha256Nat_lt _

/-! ### A collision of hash_function exists (pigeonhole) -/

/-- The string of n letters a. -/
def aRun (n : Nat) : String :=
  String.mk (List.replicate n 'a')

lemma aRun_injective : Function.Injective aRun := by
  intro i j hij
  have h2 : List.replicate i 'a' = List.replicate j 'a' := congrArg String.data hij
  simpa using congrArg List.length h2

/-- There exist two distinct node ids whose hashes against the empty key
coincide: hash_function maps infinitely many strings into 2^256 values. -/
lemma hash_function_collision :
    ∃ s₁ s₂ : String, s₁ ≠ s₂ ∧ hash_function "" s₁ = hash_function "" s₂ := by
  obtain ⟨i, j, hij, hfeq⟩ :=
    Fintype.exists_ne_map_eq_of_card_lt
      (fun i : Fin (2 ^ 256 + 1) =>
        (⟨hash_function "" (aRun i.1), hash_function_lt "" (aRun i.1)⟩ : Fin (2 ^ 256)))
      (by rw [Fintype.card_fin, Fintype.card_fin]; exact Nat.lt_succ_self _)
  refine ⟨aRun i.1, aRun j.1, ?_, ?_⟩
  · intro h
    exact hij (Fin.ext (aRun_injective h))
  · exact congrArg Fin.val hfeq

/-! ### Properties of the statistics counter -/

lemma counter_foldl_card (f : Nat → Option String) (L : List Nat) :
    ∀ acc : Multiset (Option String),
      Multiset.card (L.foldl (fun cnt i => f i ::ₘ cnt) acc)
        = Multiset.card acc + L.length := by
  induction L with
  | nil => intro acc; simp
  | cons y L ih =>
    intro acc
    rw [List.foldl_cons, ih]
    simp only [Multiset.card_cons, List.length_cons]
    omega

lemma counter_foldl_count (f : Nat → Option String) (x : Option String) (L : List Nat) :
    ∀ acc : Multiset (Option String),
      Multiset.count x (L.foldl (fun cnt i => f i ::ₘ cnt) acc)
        = Multiset.count x acc + L.countP (fun i => decide (f i = x)) := by
  induction L with
  | nil => intro acc; simp
  | cons y L ih =>
    intro acc
    rw [List.foldl_cons, ih, List.countP_cons, Multiset.count_cons]
    by_cases h : f y = x
    · rw [if_pos h.symm, if_pos (by simp [h])]
      omega
    · rw [if_neg (fun hc => h hc.symm), if_neg (by simp [h])]
      omega

/-- With zero samples, the counter is exactly the pre-seeded node list:
each node id n is counted once per occurrence in node_ids. -/
lemma run_statistics_counter_zero (node_ids : List String) (n : String) :
    Multiset.count (some n) (run_statistics_counter node_ids 0)
      = node_ids.count n := by
  unfold run_statistics_counter
  rw [show List.range 0 = [] from rfl, List.foldl_nil]
  rw [Multiset.coe_count]
  exact List.count_map_of_injective node_ids some (fun a b => Option.some.inj) n

/-- General shape of the counter: multiplicity in the seed plus the number
of samples assigned to the node. -/
lemma run_statistics_counter_count (node_ids : List String) (num_samples : Nat) (n : String) :
    Multiset.count (some n) (run_statistics_counter node_ids num_samples)
      = node_ids.count n
        + (List.range num_samples).countP
            (fun i => decide (rendezvous_hashing (toString i) node_ids = some n)) := by
  unfold run_statistics_counter
  rw [counter_foldl_count, Multiset.coe_count]
  rw [List.count_map_of_injective node_ids some (fun a b => Option.some.inj) n]

/-- Total size of the counter: the number of nodes plus the sample count. -/
lemma run_statistics_counter_card (node_ids : List String) (num_samples : Nat) :
    Multiset.card (run_statistics_counter node_ids num_samples)
      = num_samples + node_ids.length := by
  unfold run_statistics_counter
  rw [counter_foldl_card]
  simp [List.length_range]
  omega

/-! ### The claims -/

/-- Claim C1 (counterexample): there is a key and a pair of nodes with
bit-identical scores for which rendezvous_hashing picks the node that
comes first in the list even though the other tied node is
lexicographically smaller, refuting the lexicographic tie-break. -/
theorem rendezvous_tie_not_lex_smallest :
    ∃ key n₁ n₂ : String,
      hash_function key n₁ = hash_function key n₂ ∧ n₂ < n₁ ∧
      rendezvous_hashing key [n₁, n₂] = some n₁ ∧
      rendezvous_hashing key [n₁, n₂] ≠ some n₂ := by
  obtain ⟨s₁, s₂, hne, heq⟩ := hash_function_collision
  rcases lt_or_gt_of_ne hne with hlt | hgt
  · refine ⟨"", s₂, s₁, heq.symm, hlt, ?_, ?_⟩
    · exact rendezvousWith_pair_eq hash_function "" s₂ s₁ heq.symm
    · intro hc
      have hc2 : rendezvousWith hash_function "" [s₂, s₁] = some s₁ := hc
      rw [rendezvousWith_pair_eq hash_function "" s₂ s₁ heq.symm] at hc2
      exact hne (Option.some.inj hc2).symm
  · refine ⟨"", s₁, s₂, heq, hgt, ?_, ?_⟩
    · exact rendezvousWith_pair_eq hash_function "" s₁ s₂ heq
    · intro hc
      have hc2 : rendezvousWith hash_function "" [s₁, s₂] = some s₂ := hc
      rw [rendezvousWith_pair_eq hash_function "" s₁ s₂ heq] at hc2
      exact hne (Option.some.inj hc2)

/-- Claim C1 (amended): among the nodes of maximal score, rendezvous_hashing
selects the one that occurs first in the node list: if every node before n
scores strictly below n and every node after n scores at most n, then n is
assigned. -/
theorem rendezvous_first_max_wins (key n : String) (l₁ l₂ : List String)
    (h₁ : ∀ x ∈ l₁, hash_function key x < hash_function key n)
    (h₂ : ∀ x ∈ l₂, hash_function key x ≤ hash_function key n) :
    rendezvous_hashing key (l₁ ++ n :: l₂) = some n :=
  rendezvousWith_first_max hash_function key l₁ l₂ n h₁ h₂

/-- Witness for the amended claim C1 at a concrete tie (a duplicated id). -/
theorem rendezvous_first_max_wins_witness :
    (∀ x ∈ ([] : List String), hash_function "k" x < hash_function "k" "A") ∧
    (∀ x ∈ (["A"] : List String), hash_function "k" x ≤ hash_function "k" "A") ∧
    rendezvous_hashing "k" ["A", "A"] = some "A" :=
  ⟨by simp, by simp, rendezvous_first_max_wins "k" "A" [] ["A"] (by simp) (by simp)⟩

/-- Claim C2 (counterexample): on the empty node list the source does not
fail with an InvalidNodeSet error; the call returns normally with the
None sentinel. -/
theorem rendezvous_empty_returns_none :
    rendezvous_hashing "k" [] = none := rfl

/-- Claim C2 (amended): for every key, rendezvous_hashing on the empty node
list returns None (the initial assigned_node), not an error. -/
theorem rendezvous_empty_none (key : String) :
    rendezvous_hashing key [] = none := rfl

/-- Claim C3 (counterexample): the score of key a and node b is not below
one, so hash_function does not map into the real interval from 0 to 1. -/
theorem hash_function_not_below_one :
    ¬ (hash_function "a" "b" < 1) := by decide

/-- Claim C3 (amended): hash_function returns a non-negative integer
strictly below 2 to the 256, the full SHA-256 digest, not a real in the
unit interval. -/
theorem hash_function_is_256_bit (key_id node_id : String) :
    hash_function key_id node_id < 2 ^ 256 :=
  hash_function_lt key_id node_id

/-- Claim C4: removing a node m other than the assigned node n from a
duplicate-free node list leaves the assignment of the key unchanged. -/
theorem rendezvous_minimal_disruption_removal (key m n : String) (l₁ l₂ : List String)
    (hnd : (l₁ ++ m :: l₂).Nodup)
    (h : rendezvous_hashing key (l₁ ++ m :: l₂) = some n) (hmn : m ≠ n) :
    rendezvous_hashing key (l₁ ++ l₂) = some n :=
  rendezvousWith_removal hash_function key l₁ l₂ m n h hmn

/-- Witness for claim C4: with key k over nodes A and B the winner is B,
and removing A keeps the winner B. -/
theorem rendezvous_minimal_disruption_removal_witness :
    (["A", "B"] : List String).Nodup ∧
    rendezvous_hashing "k" ["A", "B"] = some "B" ∧ "A" ≠ "B" ∧
    rendezvous_hashing "k" ["B"] = some "B" :=
  ⟨by decide, by decide, by decide,
   rendezvous_minimal_disruption_removal "k" "A" "B" [] ["B"]
     (by decide) (by decide) (by decide)⟩

/-- Claim C5: adding a node m to a node list either leaves the assigned
node n unchanged or moves the assignment to m, never to a third node. -/
theorem rendezvous_minimal_disruption_addition (key m n : String) (l₁ l₂ : List String)
    (h : rendezvous_hashing key (l₁ ++ l₂) = some n) :
    rendezvous_hashing key (l₁ ++ m :: l₂) = some n ∨
    rendezvous_hashing key (l₁ ++ m :: l₂) = some m :=
  rendezvousWith_addition hash_function key l₁ l₂ m n h

/-- Witness for claim C5 at the singleton list A with B added in front. -/
theorem rendezvous_minimal_disruption_addition_witness :
    rendezvous_hashing "k" ["A"] = some "A" ∧
    (rendezvous_hashing "k" ["B", "A"] = some "A" ∨
     rendezvous_hashing "k" ["B", "A"] = some "B") :=
  ⟨rendezvousWith_singleton hash_function "k" "A",
   rendezvous_minimal_disruption_addition "k" "B" "A" [] ["A"]
     (rendezvousWith_singleton hash_function "k" "A")⟩

/-- Claim C6 (counterexample): there is a key and a permutation of a node
list on which rendezvous_hashing gives different results, refuting
unconditional order-independence. -/
theorem rendezvous_order_dependent :
    ∃ (key : String) (N N' : List String), N.Perm N' ∧
      rendezvous_hashing key N ≠ rendezvous_hashing key N' := by
  obtain ⟨s₁, s₂, hne, heq⟩ := hash_function_collision
  refine ⟨"", [s₁, s₂], [s₂, s₁], List.Perm.swap s₂ s₁ [], ?_⟩
  show rendezvousWith hash_function "" [s₁, s₂] ≠ rendezvousWith hash_function "" [s₂, s₁]
  rw [rendezvousWith_pair_eq hash_function "" s₁ s₂ heq,
      rendezvousWith_pair_eq hash_function "" s₂ s₁ heq.symm]
  exact fun hc => hne (Option.some.inj hc)

/-- Claim C6 (amended): when no two nodes of the list receive equal scores
for the key, permuting the node list does not change the result of
rendezvous_hashing (and hence neither the winning score). -/
theorem rendezvous_perm_invariant (key : String) (N N' : List String)
    (hperm : N.Perm N')
    (hinj : ∀ x ∈ N, ∀ y ∈ N, hash_function key x = hash_function key y → x = y) :
    rendezvous_hashing key N = rendezvous_hashing key N' :=
  rendezvousWith_perm hash_function key N N' hperm hinj

/-- Witness for the amended claim C6 on the two-node list A, B reversed. -/
theorem rendezvous_perm_invariant_witness :
    (["A", "B"] : List String).Perm ["B", "A"] ∧
    (∀ x ∈ (["A", "B"] : List String), ∀ y ∈ (["A", "B"] : List String),
      hash_function "k" x = hash_function "k" y → x = y) ∧
    rendezvous_hashing "k" ["A", "B"] = rendezvous_hashing "k" ["B", "A"] :=
  ⟨List.Perm.swap "B" "A" [], by decide,
   rendezvous_perm_invariant "k" ["A", "B"] ["B", "A"]
     (List.Perm.swap "B" "A" []) (by decide)⟩

/-- With zero samples over a non-empty node list, run_statistics fails:
the expected count per node is zero and diff_percent divides by it,
raising ZeroDivisionError in the source. -/
lemma run_statistics_zero_fails (node_ids : List String) (hne : node_ids ≠ []) :
    run_statistics node_ids 0 = none := by
  have hlen : ((node_ids.length : Rat)) ≠ 0 := by
    have h0 : node_ids.length ≠ 0 := fun h => hne (List.length_eq_zero.mp h)
    exact_mod_cast h0
  have hdiv : pyDiv ((0 : Nat) : Rat) (node_ids.length : Rat) = some 0 := by
    unfold pyDiv
    rw [if_neg hlen]
    norm_num
  have hdiffz : ∀ o : Nat, diff_percent o 0 = none := by
    intro o
    unfold diff_percent
    simp
  simp only [run_statistics]
  rw [hdiv]
  simp only [Option.bind]
  rcases pyMaxVals (counterValues (run_statistics_counter node_ids 0)) with _ | mx
  · rfl
  · simp only [Option.bind]
    rcases pyMinVals (counterValues (run_statistics_counter node_ids 0)) with _ | mn
    · rfl
    · simp only [Option.bind, hdiffz]

/-- Claim C7 (counterexample): over the single-node list A with zero
samples, run_statistics does not succeed: it produces no report (the
source raises ZeroDivisionError in diff_percent). -/
theorem run_statistics_zero_samples_error :
    run_statistics ["A"] 0 = none :=
  run_statistics_zero_fails ["A"] (by decide)

/-- Claim C7 (amended): for every non-empty node list, run_statistics with
zero samples fails with ZeroDivisionError (no report is produced): the
expected count per node is zero and diff_percent divides by it; at that
point its counter already holds each node at its pre-seed multiplicity
(1 for distinct ids), never zero. -/
theorem run_statistics_zero_samples_raises (node_ids : List String)
    (hne : node_ids ≠ []) :
    run_statistics node_ids 0 = none ∧
    ∀ n, Multiset.count (some n) (run_statistics_counter node_ids 0)
      = node_ids.count n :=
  ⟨run_statistics_zero_fails node_ids hne,
   fun n => run_statistics_counter_zero node_ids n⟩

/-- Witness for the amended claim C7 over the single-node list A. -/
theorem run_statistics_zero_samples_raises_witness :
    (["A"] : List String) ≠ [] ∧
    (run_statistics ["A"] 0 = none ∧
      ∀ n, Multiset.count (some n) (run_statistics_counter ["A"] 0)
        = (["A"] : List String).count n) :=
  ⟨by decide, run_statistics_zero_samples_raises ["A"] (by decide)⟩

/-- Claim C8 (counterexample): on a node list with a duplicated id the
pre-seed is not 1 per node: with zero samples the count of A over the list
A, A is 2, not 1. -/
theorem run_statistics_duplicate_seed_count :
    Multiset.count (some "A") (run_statistics_counter ["A", "A"] 0) ≠ 1 := by decide

/-- Claim C8 (amended): over a duplicate-free node list, every node's tally
is 1 (the Counter pre-seed) plus the number of sample keys assigned to it,
and the counter total is the sample count plus the number of nodes. -/
theorem run_statistics_counter_spec (node_ids : List String) (num_samples : Nat)
    (n : String) (hnd : node_ids.Nodup) (hn : n ∈ node_ids) :
    Multiset.count (some n) (run_statistics_counter node_ids num_samples)
      = 1 + (List.range num_samples).countP
          (fun i => decide (rendezvous_hashing (toString i) node_ids = some n)) ∧
    Multiset.card (run_statistics_counter node_ids num_samples)
      = num_samples + node_ids.length := by
  constructor
  · rw [run_statistics_counter_count, List.count_eq_one_of_mem hnd hn]
  · exact run_statistics_counter_card node_ids num_samples

/-- Witness for the amended claim C8 over the single-node list A. -/
theorem run_statistics_counter_spec_witness :
    (["A"] : List String).Nodup ∧ "A" ∈ (["A"] : List String) ∧
    (Multiset.count (some "A") (run_statistics_counter ["A"] 0)
        = 1 + (List.range 0).countP
            (fun i => decide (rendezvous_hashing (toString i) ["A"] = some "A")) ∧
      Multiset.card (run_statistics_counter ["A"] 0)
        = 0 + (["A"] : List String).length) :=
  ⟨by decide, by decide, run_statistics_counter_spec ["A"] 0 "A" (by decide) (by decide)⟩

/-- Claim C9: on a non-empty node list, rendezvous_hashing assigns the key
to some node, and that node is a member of the list passed to the call. -/
theorem rendezvous_assigns_member (key : String) (nodes : List String)
    (hne : nodes ≠ []) :
    ∃ n, rendezvous_hashing key nodes = some n ∧ n ∈ nodes :=
  rendezvousWith_exists hash_function key nodes hne

/-- Witness for claim C9 on the singleton list A. -/
theorem rendezvous_assigns_member_witness :
    (["A"] : List String) ≠ [] ∧
    ∃ n, rendezvous_hashing "x" ["A"] = some n ∧ n ∈ (["A"] : List String) :=
  ⟨by decide, rendezvous_assigns_member "x" ["A"] (by decide)⟩

/-- Claim C10: hash_function only sees the concatenation of key and node
id, so any two pairs with equal concatenations score identically; in
particular the distinct pairs a, bc and ab, c receive the same score. -/
theorem hash_function_concat_ambiguity :
    (∀ k₁ n₁ k₂ n₂ : String, k₁ ++ n₁ = k₂ ++ n₂ →
      hash_function k₁ n₁ = hash_function k₂ n₂) ∧
    ((("a", "bc") : String × String) ≠ ("ab", "c") ∧
      hash_function "a" "bc" = hash_function "ab" "c") := by
  have hcongr : ∀ k₁ n₁ k₂ n₂ : String, k₁ ++ n₁ = k₂ ++ n₂ →
      hash_function k₁ n₁ = hash_function k₂ n₂ := by
    intro k₁ n₁ k₂ n₂ h
    unfold hash_function
    rw [h]
  exact ⟨hcongr, by decide, hcongr "a" "bc" "ab" "c" (by decide)⟩

/-- Witness for claim C10 at the concatenation split x, yz versus xy, z. -/
theorem hash_function_concat_ambiguity_witness :
    ("x" ++ "yz" : String) = "xy" ++ "z" ∧
    hash_function "x" "yz" = hash_function "xy" "z" :=
  ⟨by decide, hash_function_concat_ambiguity.1 "x" "yz" "xy" "z" (by decide)⟩
